import Mathlib

/-!
# Verification of the decoding strategies and generation loop of `decoding.ipynb`

Shallow embedding of the classes `TextGenerator`, `GreedyDecoding`,
`RandomDecoding`, `TopKDecoding`, `TopPDecoding` and `TopKTopPDecoding`.

Modelling conventions:

* Probabilities are exact rationals (`ℚ`); a probability vector is a
  `List ℚ` indexed by vocabulary index.
* `torch.sort(probs, descending=True)` is embedded as a stable descending
  sort of (probability, original index) pairs (ties broken by original
  index ascending, the stability the spec assumes).
* `probs.multinomial(num_samples=1)` is embedded as the inverse-CDF draw
  `categorical`, taking the random source `u` as an explicit argument.
* The in-place scatter `probs[idxs] = 0.0` is embedded as `zeroIndices`.
* `probs / probs.sum()` with a zero divisor is a division-by-zero failure
  (NaN in torch), embedded as `Option.none` in `renormalize`.
* The external collaborators (the huggingface model, the tokenizer, and
  the `F.softmax` numeric primitive) are fields of the `TextGenerator`
  structure, as in the source they are constructor arguments / library
  calls.
-/

/-- Order used for `torch.sort(_, descending=True)` on
(probability, original index) pairs: descending by probability. -/
def pairDescLE (x y : ℚ × ℕ) : Prop := y.1 ≤ x.1

instance : DecidableRel pairDescLE := fun x y => inferInstanceAs (Decidable (y.1 ≤ x.1))

instance : IsTotal (ℚ × ℕ) pairDescLE := ⟨fun a b => le_total b.1 a.1⟩

instance : IsTrans (ℚ × ℕ) pairDescLE := ⟨fun _ _ _ h1 h2 => le_trans h2 h1⟩

/-- `torch.sort(probs, descending=True)` : the list of
(probability, original index) pairs, sorted by probability descending,
ties broken by original index ascending (stable sort). -/
def sortedPairs (probs : List ℚ) : List (ℚ × ℕ) :=
  List.insertionSort pairDescLE (probs.enum.map (fun q => (q.2, q.1)))

/-- The `sorted_probs` component of `torch.sort(probs, descending=True)`. -/
def sortedProbs (probs : List ℚ) : List ℚ := (sortedPairs probs).map Prod.fst

/-- The `sorted_indices` component of `torch.sort(probs, descending=True)`. -/
def sortedIndices (probs : List ℚ) : List ℕ := (sortedPairs probs).map Prod.snd

/-- Helper for `cumsum`, threading the running total. -/
def cumsumFrom (acc : ℚ) : List ℚ → List ℚ
  | [] => []
  | v :: vs => (acc + v) :: cumsumFrom (acc + v) vs

/-- `torch.cumsum(l, dim=-1)` : running cumulative sums. -/
def cumsum (l : List ℚ) : List ℚ := cumsumFrom 0 l

/-- Helper for `zeroIndices`, carrying the current position. -/
def zeroIdxFrom (idxs : List ℕ) : ℕ → List ℚ → List ℚ
  | _, [] => []
  | i, v :: vs => (if i ∈ idxs then 0 else v) :: zeroIdxFrom idxs (i + 1) vs

/-- The scatter-assignment `probs[idxs] = 0.0` : zero out the entries
whose (0-based) position occurs in `idxs`. -/
def zeroIndices (probs : List ℚ) (idxs : List ℕ) : List ℚ := zeroIdxFrom idxs 0 probs

/-- `probs = probs / probs.sum()` : renormalize to sum 1.  A zero sum is
a division-by-zero failure (`none`). -/
def renormalize (probs : List ℚ) : Option (List ℚ) :=
  if probs.sum = 0 then none else some (probs.map (fun v => v / probs.sum))

/-- `probs.multinomial(num_samples=1)` with the random source `u`
injected: inverse-CDF draw, returning the first position whose
cumulative weight strictly exceeds `u`. -/
def categorical : List ℚ → ℚ → ℕ
  | [], _ => 0
  | w :: ws, u => if u < w then 0 else categorical ws (u - w) + 1

/-- `torch.argmax(probs)` : the first (lowest) index attaining the
maximum entry. -/
def argmaxList : List ℚ → ℕ
  | [] => 0
  | [_] => 0
  | v :: vs => if v < vs.getD (argmaxList vs) 0 then argmaxList vs + 1 else 0

/-- `GreedyDecoding.sample` : `probs.argmax()`. -/
def GreedyDecoding.sample (probs : List ℚ) : ℕ := argmaxList probs

/-- `RandomDecoding.sample` : `probs.multinomial(num_samples=1)` with the
random source injected. -/
def RandomDecoding.sample (probs : List ℚ) (u : ℚ) : ℕ := categorical probs u

/-- `TopKDecoding.__init__` stores `k` unvalidated.  `k` models a
non-negative Python int; Python's negative-slice wraparound is outside
the modelled range. -/
structure TopKDecoding where
  k : ℕ

/-- The truncation/renormalization part of `TopKDecoding.sample`:
zero out all but the top `k` probabilities, then renormalize. -/
def topKFilter (k : ℕ) (probs : List ℚ) : Option (List ℚ) :=
  renormalize (zeroIndices probs ((sortedIndices probs).drop k))

/-- `TopKDecoding.sample` : top-k truncation, renormalization, then a
weighted draw. -/
def TopKDecoding.sample (s : TopKDecoding) (probs : List ℚ) (u : ℚ) : Option ℕ :=
  (topKFilter s.k probs).map (fun q => categorical q u)

/-- The boolean suppression mask over sorted positions:
`idx_to_suppress = cumulative_probs > self.p` followed by
`idx_to_suppress[0] = False`. -/
def suppressMask (p : ℚ) (probs : List ℚ) : List Bool :=
  match (cumsum (sortedProbs probs)).map (fun c => decide (p < c)) with
  | [] => []
  | _ :: t => false :: t

/-- `sorted_indices[idx_to_suppress == True]` : the original indices
sitting at the suppressed sorted positions. -/
def suppressedIndices (p : ℚ) (probs : List ℚ) : List ℕ :=
  ((sortedIndices probs).zip (suppressMask p probs)).filterMap
    (fun q => if q.2 then some q.1 else none)

/-- `TopPDecoding.__init__` stores `p` unvalidated. -/
structure TopPDecoding where
  p : ℚ

/-- The truncation/renormalization part of `TopPDecoding.sample`:
zero the entries at suppressed sorted positions, then renormalize. -/
def topPFilter (p : ℚ) (probs : List ℚ) : Option (List ℚ) :=
  renormalize (zeroIndices probs (suppressedIndices p probs))

/-- `TopPDecoding.sample` : nucleus truncation, renormalization, then a
weighted draw. -/
def TopPDecoding.sample (s : TopPDecoding) (probs : List ℚ) (u : ℚ) : Option ℕ :=
  (topPFilter s.p probs).map (fun q => categorical q u)

/-- `TopKTopPDecoding.__init__` stores `k` and `p` unvalidated. -/
structure TopKTopPDecoding where
  k : ℕ
  p : ℚ

/-- The truncation/renormalization pipeline of `TopKTopPDecoding.sample`,
transcribed inline from the source: the top-K zeroing and
renormalization, then the top-P zeroing and renormalization applied to
the intermediate result. -/
def topKTopPFilter (k : ℕ) (p : ℚ) (probs : List ℚ) : Option (List ℚ) :=
  match renormalize (zeroIndices probs ((sortedIndices probs).drop k)) with
  | none => none
  | some probs1 => renormalize (zeroIndices probs1 (suppressedIndices p probs1))

/-- `TopKTopPDecoding.sample` : top-k step, then top-p step on its
output, then a weighted draw. -/
def TopKTopPDecoding.sample (s : TopKTopPDecoding) (probs : List ℚ) (u : ℚ) : Option ℕ :=
  (topKTopPFilter s.k s.p probs).map (fun q => categorical q u)

/-- The candidate (non-suppressed) vocabulary indices of a probability
vector: positions with a non-zero entry. -/
def support (probs : List ℚ) : List ℕ :=
  probs.enum.filterMap (fun q => if q.2 = 0 then none else some q.1)

/-- Candidate set of an optional probability vector (empty on failure). -/
def supportOf (r : Option (List ℚ)) : List ℕ :=
  match r with
  | none => []
  | some q => support q

/-- The first cumulative sum (over a given order) strictly exceeding
`p` — the quantity the specification calls "the smallest prefix sum
exceeding `p`" (the cumulative sums of a non-negative vector are
monotone, so the first one exceeding `p` is the smallest). -/
def smallestPrefixSumExceeding (p : ℚ) (l : List ℚ) : Option ℚ :=
  (cumsum l).find? (fun c => decide (p < c))

/-- The number of sorted positions the TopP mask keeps: the number of
cumulative sums not exceeding `p`, forced to at least 1 because the code
sets `idx_to_suppress[0] = False` (analysis quantity, derived from the
mask construction). -/
def topPKeepCount (p : ℚ) (probs : List ℚ) : ℕ :=
  max 1 ((cumsum (sortedProbs probs)).countP (fun x => decide (x ≤ p)))

/-- A probability vector putting all mass on one index. -/
def oneHot (V idx : ℕ) : List ℚ :=
  List.replicate idx 0 ++ 1 :: List.replicate (V - idx - 1) 0

/-- The Model collaborator: `forward` returns one row of logits per
position of the input view; `maxInputLength` is
`model.config.max_position_embeddings`. -/
structure ModelE where
  forward : List ℕ → List (List ℚ)
  maxInputLength : ℕ

/-- The Tokenizer collaborator: `encode`/`decode` and the designated
end-of-sequence index `tokenizer.eos_token_id`. -/
structure TokenizerE where
  encode : String → List ℕ
  decode : List ℕ → String
  eosIdx : ℕ

/-- `TextGenerator.__init__` : the model, the tokenizer, the configured
decoding strategy (its `sample`, with any randomness already injected),
and the `F.softmax` numeric primitive used by `generate`. -/
structure TextGenerator where
  model : ModelE
  tokenizer : TokenizerE
  decodingStrategy : List ℚ → ℕ
  softmaxFn : List ℚ → List ℚ

/-- Result of the generation loop, instrumented with the observable
events: the full record (`torch.cat(running_out)`), the full record as
it stood at each model invocation, the actual inputs passed to
`model.forward` (the views), and the records at which a
`warnings.warn` fired. -/
structure GenResult where
  record : List ℕ
  recordsHist : List (List ℕ)
  views : List (List ℕ)
  warnRecords : List (List ℕ)

/-- The context clamp: `x = x[:, x.size(1)-self.max_input_length:]`,
applied when the length of the current sequence exceeds
`self.max_input_length`. -/
def stepView (g : TextGenerator) (record : List ℕ) : List ℕ :=
  if g.model.maxInputLength < record.length then
    record.drop (record.length - g.model.maxInputLength)
  else record

/-- One step's probability vector:
`probs = F.softmax(out.logits[0, -1] / temperature, dim=0)` where
`out = model(x)`. -/
def stepProbs (g : TextGenerator) (temperature : ℚ) (x : List ℕ) : List ℚ :=
  g.softmaxFn (((g.model.forward x).getLastD []).map (fun v => v / temperature))

/-- The `while step_count < max_steps` loop of `TextGenerator.generate`:
`fuel` is the number of remaining steps, `record` the full record so
far, `warned` the `max_length_warning_triggered` flag. -/
def genLoop (g : TextGenerator) (temperature : ℚ) :
    ℕ → List ℕ → Bool → GenResult
  | 0, record, _ => ⟨record, [], [], []⟩
  | fuel + 1, record, warned =>
    let clamped : Bool := g.model.maxInputLength < record.length
    let warnsNew : List (List ℕ) := if clamped && !warned then [record] else []
    let warned1 : Bool := clamped || warned
    let x := stepView g record
    let probs := stepProbs g temperature x
    let token := g.decodingStrategy probs
    if token = g.tokenizer.eosIdx then
      ⟨record, [record], [x], warnsNew⟩
    else
      let r := genLoop g temperature fuel (record ++ [token]) warned1
      ⟨r.record, record :: r.recordsHist, x :: r.views, warnsNew ++ r.warnRecords⟩

/-- `TextGenerator.generate`, instrumented: encode the prompt, run the
loop with a fresh (cleared) warning flag.  `maxSteps` is a Python
`int`; a non-positive value runs zero iterations of the
`while step_count < max_steps` loop. -/
def TextGenerator.generateFull (g : TextGenerator) (prompt : String)
    (maxSteps : ℤ) (temperature : ℚ) : GenResult :=
  genLoop g temperature maxSteps.toNat (g.tokenizer.encode prompt) false

/-- `TextGenerator.generate` : the returned string is the tokenizer's
decoding of the full record. -/
def TextGenerator.generate (g : TextGenerator) (prompt : String)
    (maxSteps : ℤ) (temperature : ℚ) : String :=
  g.tokenizer.decode (g.generateFull prompt maxSteps temperature).record

/-! ## Properties of the sort, cumulative sum and scatter embeddings -/

theorem sortedPairs_perm (probs : List ℚ) :
    (sortedPairs probs).Perm (probs.enum.map (fun q => (q.2, q.1))) :=
  List.perm_insertionSort pairDescLE _

theorem sortedPairs_sorted (probs : List ℚ) :
    List.Sorted pairDescLE (sortedPairs probs) :=
  List.sorted_insertionSort pairDescLE _

theorem sortedProbs_perm (probs : List ℚ) : (sortedProbs probs).Perm probs := by
  have h := (sortedPairs_perm probs).map Prod.fst
  rw [List.map_map] at h
  rw [show (Prod.fst ∘ fun q : ℕ × ℚ => (q.2, q.1)) = Prod.snd from rfl,
    List.enum_map_snd] at h
  exact h

theorem sortedIndices_perm (probs : List ℚ) :
    (sortedIndices probs).Perm (List.range probs.length) := by
  have h := (sortedPairs_perm probs).map Prod.snd
  rw [List.map_map] at h
  rw [show (Prod.snd ∘ fun q : ℕ × ℚ => (q.2, q.1)) = Prod.fst from rfl,
    List.enum_map_fst] at h
  exact h

theorem sortedIndices_nodup (probs : List ℚ) : (sortedIndices probs).Nodup :=
  (sortedIndices_perm probs).nodup_iff.mpr (List.nodup_range probs.length)

theorem mem_sortedIndices {probs : List ℚ} {i : ℕ} :
    i ∈ sortedIndices probs ↔ i < probs.length := by
  rw [(sortedIndices_perm probs).mem_iff, List.mem_range]

theorem sortedPairs_valid {probs : List ℚ} {q : ℚ × ℕ} (h : q ∈ sortedPairs probs) :
    q.2 < probs.length ∧ probs.getD q.2 0 = q.1 := by
  rw [(sortedPairs_perm probs).mem_iff, List.mem_map] at h
  obtain ⟨⟨i, v⟩, hm, he⟩ := h
  have hq : q = (v, i) := he.symm
  subst hq
  have hg : probs[i]? = some v := List.mk_mem_enum_iff_getElem?.mp hm
  obtain ⟨hlt, hval⟩ := List.getElem?_eq_some_iff.mp hg
  exact ⟨hlt, by rw [List.getD_eq_getElem probs 0 hlt, hval]⟩

theorem sortedProbs_length (probs : List ℚ) : (sortedProbs probs).length = probs.length :=
  (sortedProbs_perm probs).length_eq

theorem sortedProbs_nonneg {probs : List ℚ} (hnn : ∀ x ∈ probs, 0 ≤ x) :
    ∀ x ∈ sortedProbs probs, 0 ≤ x :=
  fun x hx => hnn x ((sortedProbs_perm probs).mem_iff.mp hx)

theorem cumsumFrom_length (acc : ℚ) (l : List ℚ) : (cumsumFrom acc l).length = l.length := by
  induction l generalizing acc with
  | nil => rfl
  | cons v vs ih => simp [cumsumFrom, ih]

theorem cumsum_length (l : List ℚ) : (cumsum l).length = l.length := cumsumFrom_length 0 l

theorem cumsumFrom_getD (l : List ℚ) :
    ∀ (acc : ℚ) (j : ℕ), j < l.length →
      (cumsumFrom acc l).getD j 0 = acc + (l.take (j + 1)).sum := by
  induction l with
  | nil => intro acc j h; exact absurd h (by simp)
  | cons v vs ih =>
    intro acc j h
    cases j with
    | zero => simp [cumsumFrom]
    | succ j' =>
      rw [cumsumFrom, List.getD_cons_succ, ih (acc + v) j' (by simpa using h)]
      simp [add_assoc]

theorem cumsum_getD (l : List ℚ) (j : ℕ) (h : j < l.length) :
    (cumsum l).getD j 0 = (l.take (j + 1)).sum := by
  rw [cumsum, cumsumFrom_getD l 0 j h, zero_add]

theorem mem_cumsumFrom_le (l : List ℚ) :
    ∀ (acc x : ℚ), x ∈ cumsumFrom acc l → (∀ y ∈ l, 0 ≤ y) → x ≤ acc + l.sum := by
  induction l with
  | nil => intro acc x hx; exact absurd hx (by simp [cumsumFrom])
  | cons v vs ih =>
    intro acc x hx hnn
    rw [cumsumFrom, List.mem_cons] at hx
    rcases hx with hx | hx
    · subst hx
      have : 0 ≤ vs.sum := List.sum_nonneg (fun y hy => hnn y (List.mem_cons_of_mem v hy))
      simp [List.sum_cons, ← add_assoc]
      linarith
    · have := ih (acc + v) x hx (fun y hy => hnn y (List.mem_cons_of_mem v hy))
      simpa [List.sum_cons, add_assoc] using this

theorem mem_cumsum_le_sum {l : List ℚ} (hnn : ∀ y ∈ l, 0 ≤ y) {x : ℚ}
    (hx : x ∈ cumsum l) : x ≤ l.sum := by
  have := mem_cumsumFrom_le l 0 x hx hnn
  simpa using this

theorem le_mem_cumsumFrom (l : List ℚ) :
    ∀ (acc x : ℚ), x ∈ cumsumFrom acc l → (∀ y ∈ l, 0 ≤ y) → acc ≤ x := by
  induction l with
  | nil => intro acc x hx; exact absurd hx (by simp [cumsumFrom])
  | cons v vs ih =>
    intro acc x hx hnn
    have hv : 0 ≤ v := hnn v (List.mem_cons_self v vs)
    rw [cumsumFrom, List.mem_cons] at hx
    rcases hx with hx | hx
    · subst hx; linarith
    · have := ih (acc + v) x hx (fun y hy => hnn y (List.mem_cons_of_mem v hy))
      linarith

theorem cumsumFrom_pairwise (l : List ℚ) (hnn : ∀ y ∈ l, 0 ≤ y) :
    ∀ acc : ℚ, List.Pairwise (· ≤ ·) (cumsumFrom acc l) := by
  induction l with
  | nil => intro acc; simp [cumsumFrom]
  | cons v vs ih =>
    intro acc
    have hnn' : ∀ y ∈ vs, 0 ≤ y := fun y hy => hnn y (List.mem_cons_of_mem v hy)
    rw [cumsumFrom, List.pairwise_cons]
    exact ⟨fun x hx => le_mem_cumsumFrom vs (acc + v) x hx hnn', ih hnn' (acc + v)⟩

theorem cumsum_pairwise {l : List ℚ} (hnn : ∀ y ∈ l, 0 ≤ y) :
    List.Pairwise (· ≤ ·) (cumsum l) :=
  cumsumFrom_pairwise l hnn 0

theorem zeroIdxFrom_length (idxs : List ℕ) (l : List ℚ) :
    ∀ s : ℕ, (zeroIdxFrom idxs s l).length = l.length := by
  induction l with
  | nil => intro s; rfl
  | cons v vs ih => intro s; simp [zeroIdxFrom, ih]

theorem zeroIndices_length (probs : List ℚ) (idxs : List ℕ) :
    (zeroIndices probs idxs).length = probs.length := zeroIdxFrom_length idxs probs 0

theorem zeroIdxFrom_getD (idxs : List ℕ) (l : List ℚ) :
    ∀ (s j : ℕ), (zeroIdxFrom idxs s l).getD j 0 =
      if (s + j) ∈ idxs then 0 else l.getD j 0 := by
  induction l with
  | nil =>
    intro s j
    by_cases h : (s + j) ∈ idxs <;> simp [zeroIdxFrom, h]
  | cons v vs ih =>
    intro s j
    cases j with
    | zero => simp [zeroIdxFrom]
    | succ j' =>
      rw [zeroIdxFrom, List.getD_cons_succ, ih (s + 1) j', List.getD_cons_succ]
      have : s + 1 + j' = s + (j' + 1) := by omega
      rw [this]

theorem zeroIndices_getD (probs : List ℚ) (idxs : List ℕ) (j : ℕ) :
    (zeroIndices probs idxs).getD j 0 = if j ∈ idxs then 0 else probs.getD j 0 := by
  have := zeroIdxFrom_getD idxs probs 0 j
  simpa using this

theorem mem_zeroIdxFrom {idxs : List ℕ} {l : List ℚ} :
    ∀ {s : ℕ} {x : ℚ}, x ∈ zeroIdxFrom idxs s l → x = 0 ∨ x ∈ l := by
  induction l with
  | nil => intro s x hx; exact absurd hx (by simp [zeroIdxFrom])
  | cons v vs ih =>
    intro s x hx
    rw [zeroIdxFrom, List.mem_cons] at hx
    rcases hx with hx | hx
    · by_cases h : s ∈ idxs
      · rw [if_pos h] at hx; exact Or.inl hx
      · rw [if_neg h] at hx; exact Or.inr (hx ▸ List.mem_cons_self v vs)
    · rcases ih hx with h | h
      · exact Or.inl h
      · exact Or.inr (List.mem_cons_of_mem v h)

theorem zeroIndices_nonneg {probs : List ℚ} {idxs : List ℕ}
    (hnn : ∀ x ∈ probs, 0 ≤ x) : ∀ x ∈ zeroIndices probs idxs, 0 ≤ x := by
  intro x hx
  rcases mem_zeroIdxFrom hx with h | h
  · simp [h]
  · exact hnn x h

theorem sum_eq_range_getD (l : List ℚ) :
    l.sum = ∑ i ∈ Finset.range l.length, l.getD i 0 := by
  induction l with
  | nil => simp
  | cons v vs ih =>
    rw [List.sum_cons, List.length_cons, Finset.sum_range_succ']
    simp only [List.getD_cons_succ, List.getD_cons_zero]
    rw [← ih, add_comm]

/-- Zeroing a valid, duplicate-free set of positions removes exactly the
sum of the entries sitting at those positions. -/
theorem zeroIndices_sum (probs : List ℚ) (idxs : List ℕ) (hnd : idxs.Nodup)
    (hlt : ∀ i ∈ idxs, i < probs.length) :
    (zeroIndices probs idxs).sum =
      probs.sum - (idxs.map (fun i => probs.getD i 0)).sum := by
  rw [sum_eq_range_getD (zeroIndices probs idxs), zeroIndices_length]
  have h1 : ∀ i ∈ Finset.range probs.length,
      (zeroIndices probs idxs).getD i 0 =
        probs.getD i 0 - (if i ∈ idxs then probs.getD i 0 else 0) := by
    intro i _
    rw [zeroIndices_getD]
    by_cases h : i ∈ idxs <;> simp [h]
  rw [Finset.sum_congr rfl h1, Finset.sum_sub_distrib, ← sum_eq_range_getD]
  congr 1
  have h2 : ∀ i ∈ Finset.range probs.length,
      (if i ∈ idxs then probs.getD i 0 else 0) =
        (if i ∈ idxs.toFinset then probs.getD i 0 else 0) := by
    intro i _
    simp [List.mem_toFinset]
  rw [Finset.sum_congr rfl h2, Finset.sum_ite_mem,
    Finset.inter_eq_right.mpr (fun i hi => Finset.mem_range.mpr
      (hlt i (List.mem_toFinset.mp hi))),
    List.sum_toFinset _ hnd]

/-- Values of `probs` read off at the sorted indices, past any cut `K`,
are the sorted probabilities past that cut. -/
theorem drop_sortedIndices_map (probs : List ℚ) (K : ℕ) :
    ((sortedIndices probs).drop K).map (fun i => probs.getD i 0) =
      (sortedProbs probs).drop K := by
  rw [sortedIndices, ← List.map_drop, List.map_map, sortedProbs, ← List.map_drop]
  exact List.map_congr_left
    (fun q hq => (sortedPairs_valid (List.mem_of_mem_drop hq)).2)

/-- The mass surviving the zeroing of all but the top `k` sorted
positions is the sum of the top `k` sorted probabilities. -/
theorem topK_survivor_sum (probs : List ℚ) (k : ℕ) :
    (zeroIndices probs ((sortedIndices probs).drop k)).sum =
      ((sortedProbs probs).take k).sum := by
  rw [zeroIndices_sum probs _ ((List.drop_sublist k _).nodup (sortedIndices_nodup probs))
    (fun i hi => mem_sortedIndices.mp (List.mem_of_mem_drop hi)),
    drop_sortedIndices_map]
  have hsplit : ((sortedProbs probs).take k).sum + ((sortedProbs probs).drop k).sum
      = probs.sum := by
    rw [← List.sum_append, List.take_append_drop]
    exact (sortedProbs_perm probs).sum_eq
  linarith

theorem topKFilter_zero_eq_none (probs : List ℚ) : topKFilter 0 probs = none := by
  rw [topKFilter, renormalize, if_pos]
  rw [topK_survivor_sum]
  simp

theorem sortedIndices_length (probs : List ℚ) :
    (sortedIndices probs).length = probs.length := by
  rw [(sortedIndices_perm probs).length_eq, List.length_range]

/-- Thresholding a monotone list splits it as pre-threshold `false`s
followed by post-threshold `true`s. -/
theorem map_decide_lt_eq_replicate (p : ℚ) (c : List ℚ)
    (hmono : List.Pairwise (· ≤ ·) c) :
    c.map (fun x => decide (p < x)) =
      List.replicate (c.countP (fun x => decide (x ≤ p))) false ++
      List.replicate (c.length - c.countP (fun x => decide (x ≤ p))) true := by
  induction c with
  | nil => simp
  | cons x rest ih =>
    rw [List.pairwise_cons] at hmono
    obtain ⟨hx, hrest⟩ := hmono
    by_cases hpx : p < x
    · have hall : ∀ y ∈ rest, p < y := fun y hy => lt_of_lt_of_le hpx (hx y hy)
      have hc0 : (x :: rest).countP (fun x => decide (x ≤ p)) = 0 := by
        rw [List.countP_eq_zero]
        intro y hy
        rcases List.mem_cons.mp hy with h | h
        · subst h; simpa using hpx
        · simpa using hall y h
      rw [hc0]
      simp only [List.replicate_zero, List.nil_append, Nat.sub_zero]
      rw [List.eq_replicate_iff]
      refine ⟨by simp, ?_⟩
      intro b hb
      rw [List.mem_map] at hb
      obtain ⟨y, hy, hbe⟩ := hb
      rcases List.mem_cons.mp hy with h | h
      · subst h; rw [← hbe]; simpa using hpx
      · rw [← hbe]; simpa using hall y h
    · have hxle : x ≤ p := not_lt.mp hpx
      have hcount : (x :: rest).countP (fun x => decide (x ≤ p)) =
          rest.countP (fun x => decide (x ≤ p)) + 1 := by
        rw [List.countP_cons]; simp [hxle]
      rw [hcount, List.map_cons, ih hrest, List.replicate_succ]
      have hlen : (x :: rest).length - (rest.countP (fun x => decide (x ≤ p)) + 1) =
          rest.length - rest.countP (fun x => decide (x ≤ p)) := by
        simp only [List.length_cons]; omega
      rw [hlen, List.cons_append]
      congr 1
      simp [hpx]

theorem suppressMask_cons (p : ℚ) (probs : List ℚ) (b : Bool) (t : List Bool)
    (h : (cumsum (sortedProbs probs)).map (fun c => decide (p < c)) = b :: t) :
    suppressMask p probs = false :: t := by
  rw [suppressMask, h]

/-- The shape of the TopP suppression mask: the first
`topPKeepCount p probs` sorted positions are kept (`false`), all later
ones suppressed (`true`). -/
theorem suppressMask_eq (p : ℚ) (probs : List ℚ) (hne : probs ≠ [])
    (hnn : ∀ x ∈ probs, 0 ≤ x) :
    suppressMask p probs =
      List.replicate (topPKeepCount p probs) false ++
      List.replicate (probs.length - topPKeepCount p probs) true := by
  have hlen : (cumsum (sortedProbs probs)).length = probs.length := by
    rw [cumsum_length, sortedProbs_length]
  have hmono := cumsum_pairwise (sortedProbs_nonneg hnn)
  have hdec := map_decide_lt_eq_replicate p _ hmono
  rw [hlen] at hdec
  have hn : 1 ≤ probs.length := by
    cases probs with
    | nil => exact absurd rfl hne
    | cons a l => simp
  cases ht : (cumsum (sortedProbs probs)).countP (fun x => decide (x ≤ p)) with
  | zero =>
    rw [ht] at hdec
    simp only [List.replicate_zero, List.nil_append, Nat.sub_zero] at hdec
    obtain ⟨n', hn'⟩ : ∃ n', probs.length = n' + 1 := ⟨probs.length - 1, by omega⟩
    rw [hn', List.replicate_succ] at hdec
    rw [suppressMask_cons p probs true _ hdec, topPKeepCount, ht]
    simp only [Nat.max_self, Nat.max_eq_left (by omega : 0 ≤ 1)]
    rw [hn']
    simp [List.replicate_succ]
  | succ t' =>
    rw [ht, List.replicate_succ, List.cons_append] at hdec
    rw [suppressMask_cons p probs false _ hdec, topPKeepCount, ht]
    have : max 1 (t' + 1) = t' + 1 := by omega
    rw [this, List.replicate_succ, List.cons_append]

theorem zip_replicate_filterMap (l : List ℕ) :
    ∀ K M : ℕ, l.length = K + M →
      (l.zip (List.replicate K false ++ List.replicate M true)).filterMap
        (fun q => if q.2 then some q.1 else none) = l.drop K := by
  induction l with
  | nil => intro K M _; simp
  | cons x xs ih =>
    intro K M hlen
    cases K with
    | zero =>
      simp only [List.replicate_zero, List.nil_append, List.drop_zero]
      obtain ⟨M', hM⟩ : ∃ M', M = M' + 1 := ⟨M - 1, by simp at hlen; omega⟩
      subst hM
      rw [List.replicate_succ, List.zip_cons_cons, List.filterMap_cons]
      have hxs := ih 0 M' (by simp at hlen; omega)
      simp only [List.replicate_zero, List.nil_append, List.drop_zero] at hxs
      simp [hxs]
    | succ K' =>
      rw [List.replicate_succ, List.cons_append, List.zip_cons_cons,
        List.filterMap_cons]
      simp only [if_neg (by simp : ¬false = true)]
      rw [ih K' M (by simp at hlen; omega), List.drop_succ_cons]

/-- The suppressed original indices are exactly the sorted indices past
the cut `topPKeepCount p probs`. -/
theorem suppressedIndices_eq_drop (p : ℚ) (probs : List ℚ) (hne : probs ≠ [])
    (hnn : ∀ x ∈ probs, 0 ≤ x) :
    suppressedIndices p probs =
      (sortedIndices probs).drop (topPKeepCount p probs) := by
  rw [suppressedIndices, suppressMask_eq p probs hne hnn]
  apply zip_replicate_filterMap
  rw [sortedIndices_length]
  have h1 : (cumsum (sortedProbs probs)).countP (fun x => decide (x ≤ p)) ≤
      probs.length := by
    have := List.countP_le_length (l := cumsum (sortedProbs probs))
      (p := fun x => decide (x ≤ p))
    rw [cumsum_length, sortedProbs_length] at this
    exact this
  have hn : 1 ≤ probs.length := by
    cases probs with
    | nil => exact absurd rfl hne
    | cons a l => simp
  rw [topPKeepCount]
  omega

/-- Below the count of cumulative sums `≤ p` the cumulative sums stay
`≤ p`; from it on they exceed `p` (for monotone lists). -/
theorem cumsum_prefix_bounds (p : ℚ) (c : List ℚ)
    (hmono : List.Pairwise (· ≤ ·) c) :
    (∀ j, j < c.countP (fun x => decide (x ≤ p)) → c.getD j 0 ≤ p) ∧
    (∀ j, c.countP (fun x => decide (x ≤ p)) ≤ j → j < c.length →
      p < c.getD j 0) := by
  have hdec := map_decide_lt_eq_replicate p c hmono
  have ht := List.countP_le_length (l := c) (p := fun x => decide (x ≤ p))
  constructor
  · intro j hj
    have hjlen : j < c.length := lt_of_lt_of_le hj ht
    have h1 : (c.map (fun x => decide (p < x))).getD j false =
        decide (p < c.getD j 0) := by
      rw [List.getD_eq_getElem _ _ (by simpa using hjlen), List.getElem_map,
        List.getD_eq_getElem _ _ hjlen]
    have h2 : (c.map (fun x => decide (p < x))).getD j false = false := by
      rw [hdec, List.getD_append _ _ _ _ (by simpa using hj),
        List.getD_eq_getElem _ _ (by simpa using hj), List.getElem_replicate]
    rw [h1] at h2
    simpa using h2
  · intro j hjt hjlen
    have h1 : (c.map (fun x => decide (p < x))).getD j false =
        decide (p < c.getD j 0) := by
      rw [List.getD_eq_getElem _ _ (by simpa using hjlen), List.getElem_map,
        List.getD_eq_getElem _ _ hjlen]
    have h2 : (c.map (fun x => decide (p < x))).getD j false = true := by
      rw [hdec, List.getD_append_right _ _ _ _ (by simpa using hjt),
        List.getD_eq_getElem _ _ (by simp; omega), List.getElem_replicate]
    rw [h1] at h2
    simpa using h2

theorem suppressMask_all_false {p : ℚ} {probs : List ℚ}
    (hnn : ∀ x ∈ probs, 0 ≤ x) (hp : probs.sum ≤ p) :
    ∀ b ∈ suppressMask p probs, b = false := by
  intro b hb
  have hmem : ∀ x ∈ (cumsum (sortedProbs probs)).map (fun c => decide (p < c)),
      x = false := by
    intro x hx
    rw [List.mem_map] at hx
    obtain ⟨c, hc, he⟩ := hx
    have hcle : c ≤ probs.sum := by
      have := mem_cumsum_le_sum (sortedProbs_nonneg hnn) hc
      rwa [(sortedProbs_perm probs).sum_eq] at this
    rw [← he]
    simpa using not_lt.mpr (le_trans hcle hp)
  rw [suppressMask] at hb
  rcases hm : (cumsum (sortedProbs probs)).map (fun c => decide (p < c)) with
    _ | ⟨x, t⟩
  · rw [hm] at hb; exact absurd hb (by simp)
  · rw [hm] at hb
    rcases List.mem_cons.mp hb with h | h
    · exact h
    · exact hmem b (hm ▸ List.mem_cons_of_mem x h)

theorem filterMap_zip_all_false (l : List ℕ) :
    ∀ m : List Bool, (∀ b ∈ m, b = false) →
      (l.zip m).filterMap (fun q => if q.2 then some q.1 else none) = [] := by
  induction l with
  | nil => intro m _; simp
  | cons x xs ih =>
    intro m hm
    cases m with
    | nil => simp
    | cons b bs =>
      have hb : b = false := hm b (List.mem_cons_self b bs)
      subst hb
      rw [List.zip_cons_cons, List.filterMap_cons]
      simp only [Bool.false_eq_true, if_false]
      exact ih bs (fun c hc => hm c (List.mem_cons_of_mem false hc))

theorem zeroIdxFrom_nil_idxs (l : List ℚ) : ∀ s : ℕ, zeroIdxFrom [] s l = l := by
  induction l with
  | nil => intro s; rfl
  | cons v vs ih => intro s; simp [zeroIdxFrom, ih]

theorem zeroIndices_nil (probs : List ℚ) : zeroIndices probs [] = probs :=
  zeroIdxFrom_nil_idxs probs 0

theorem renormalize_sum_one {probs : List ℚ} (h : probs.sum = 1) :
    renormalize probs = some probs := by
  rw [renormalize, if_neg (by rw [h]; norm_num), h]
  simp

theorem suppressedIndices_high_p {p : ℚ} {probs : List ℚ}
    (hnn : ∀ x ∈ probs, 0 ≤ x) (hp : probs.sum ≤ p) :
    suppressedIndices p probs = [] :=
  filterMap_zip_all_false _ _ (suppressMask_all_false hnn hp)

/-! ## Properties of `argmaxList` -/

theorem argmaxList_spec (l : List ℚ) (h : l ≠ []) :
    argmaxList l < l.length ∧
    (∀ j < l.length, l.getD j 0 ≤ l.getD (argmaxList l) 0) ∧
    (∀ j < argmaxList l, l.getD j 0 < l.getD (argmaxList l) 0) := by
  induction l with
  | nil => exact absurd rfl h
  | cons v vs ih =>
    cases vs with
    | nil => simp [argmaxList]
    | cons w ws =>
      obtain ⟨hlt, hmax, hfirst⟩ := ih (by simp)
      by_cases hv : v < (w :: ws).getD (argmaxList (w :: ws)) 0
      · have hval : argmaxList (v :: w :: ws) = argmaxList (w :: ws) + 1 := by
          rw [argmaxList, if_pos hv]
          simp
        rw [hval]
        refine ⟨by simpa using hlt, ?_, ?_⟩
        · intro j hj
          cases j with
          | zero =>
            simp only [List.getD_cons_zero, List.getD_cons_succ]
            exact hv.le
          | succ j' =>
            simp only [List.getD_cons_succ]
            exact hmax j' (by simpa using hj)
        · intro j hj
          cases j with
          | zero =>
            simp only [List.getD_cons_zero, List.getD_cons_succ]
            exact hv
          | succ j' =>
            simp only [List.getD_cons_succ]
            exact hfirst j' (by omega)
      · have hval : argmaxList (v :: w :: ws) = 0 := by
          rw [argmaxList, if_neg hv]
          simp
        rw [hval]
        refine ⟨by simp, ?_, ?_⟩
        · intro j hj
          cases j with
          | zero => simp
          | succ j' =>
            have h1 : (w :: ws).getD j' 0 ≤ (w :: ws).getD (argmaxList (w :: ws)) 0 :=
              hmax j' (by simpa using hj)
            have h2 : (w :: ws).getD (argmaxList (w :: ws)) 0 ≤ v := not_lt.mp hv
            simp only [List.getD_cons_zero, List.getD_cons_succ]
            exact le_trans h1 h2
        · intro j hj
          omega

/-! ## Claim theorems: greedy decoding, composition, counterexamples -/

/-- C9: `GreedyDecoding.sample` deterministically returns the first
(lowest) index attaining the maximum entry of `probs` — equal inputs
give equal indices, ties are broken by lowest index — and on
`probs = [0.1, 0.7, 0.2]` it returns index 1. -/
theorem greedy_first_argmax :
    (∀ p q : List ℚ, p = q → GreedyDecoding.sample p = GreedyDecoding.sample q) ∧
    (∀ probs : List ℚ, probs ≠ [] →
      GreedyDecoding.sample probs < probs.length ∧
      (∀ j < probs.length, probs.getD j 0 ≤ probs.getD (GreedyDecoding.sample probs) 0) ∧
      (∀ j < GreedyDecoding.sample probs,
        probs.getD j 0 < probs.getD (GreedyDecoding.sample probs) 0)) ∧
    GreedyDecoding.sample [1/10, 7/10, 2/10] = 1 := by
  refine ⟨fun p q h => by rw [h], fun probs h => argmaxList_spec probs h, ?_⟩
  norm_num [GreedyDecoding.sample, argmaxList]

/-- C9 witness: the general statement applied to the concrete vector
`[0.1, 0.7, 0.2]`. -/
theorem greedy_first_argmax_witness :
    GreedyDecoding.sample [1/10, 7/10, 2/10] <
      ([1/10, 7/10, 2/10] : List ℚ).length ∧
    GreedyDecoding.sample [1/10, 7/10, 2/10] = 1 :=
  ⟨(greedy_first_argmax.2.1 [1/10, 7/10, 2/10] (by simp)).1,
    greedy_first_argmax.2.2⟩

/-- C4: `TopKTopPDecoding(k, p).sample` restricts candidates to exactly
the set obtained by applying the TopK(k) truncation-and-renormalization
and then the TopP(p) truncation-and-renormalization to its output; and
on at least one distribution that candidate set differs from the one of
`TopPDecoding(p)` alone. -/
theorem topktopp_is_topk_then_topp :
    (∀ (k : ℕ) (p : ℚ) (probs : List ℚ) (u : ℚ),
      topKTopPFilter k p probs = (topKFilter k probs).bind (topPFilter p) ∧
      TopKTopPDecoding.sample ⟨k, p⟩ probs u =
        ((topKFilter k probs).bind (topPFilter p)).map (fun q => categorical q u)) ∧
    supportOf (topKTopPFilter 2 (9/10) [2/5, 3/10, 1/5, 1/10]) ≠
      supportOf (topPFilter (9/10) [2/5, 3/10, 1/5, 1/10]) := by
  refine ⟨fun k p probs u => ?_, ?_⟩
  swap
  · norm_num [topKTopPFilter, topKFilter, topPFilter, suppressedIndices, suppressMask,
      cumsum, cumsumFrom, sortedProbs, sortedIndices, sortedPairs, List.insertionSort,
      List.orderedInsert, pairDescLE, renormalize, zeroIndices, zeroIdxFrom,
      support, supportOf, List.enum, List.enumFrom, List.filterMap_cons]
    decide
  have h : topKTopPFilter k p probs = (topKFilter k probs).bind (topPFilter p) := by
    unfold topKTopPFilter topKFilter topPFilter
    cases renormalize (zeroIndices probs ((sortedIndices probs).drop k)) <;> rfl
  exact ⟨h, by rw [TopKTopPDecoding.sample, h]⟩

/-- C4 witness: the filter equality at a concrete strategy and input. -/
theorem topktopp_is_topk_then_topp_witness :
    topKTopPFilter 2 (9/10) [2/5, 3/10, 1/5, 1/10] =
      (topKFilter 2 [2/5, 3/10, 1/5, 1/10]).bind (topPFilter (9/10)) :=
  (topktopp_is_topk_then_topp.1 2 (9/10) [2/5, 3/10, 1/5, 1/10] 0).1

/-- C1 counterexample: on the valid distribution `[1/2, 3/10, 1/5]` with
`p = 3/5`, the surviving entries' pre-renormalization cumulative
probability is `1/2`, which is not the smallest prefix sum exceeding
`p` (that sum is `4/5`) and does not even exceed `p`: the code keeps
only the sorted positions whose cumulative sum is at most `p` (plus the
first), dropping the boundary element the claim says is kept. -/
theorem topP_smallest_prefix_cex :
    topPFilter (3/5) [1/2, 3/10, 1/5] = some [1, 0, 0] ∧
    (zeroIndices [1/2, 3/10, 1/5] (suppressedIndices (3/5) [1/2, 3/10, 1/5])).sum = 1/2 ∧
    smallestPrefixSumExceeding (3/5) (sortedProbs [1/2, 3/10, 1/5]) = some (4/5) ∧
    ¬((1 : ℚ)/2 = 4/5) ∧ ¬((3 : ℚ)/5 < 1/2) := by
  norm_num [topPFilter, suppressedIndices, suppressMask, cumsum, cumsumFrom, sortedProbs,
    sortedIndices, sortedPairs, List.insertionSort, List.orderedInsert, pairDescLE,
    renormalize, zeroIndices, zeroIdxFrom, smallestPrefixSumExceeding, List.find?]

/-- C2 counterexample: constructing `TopKDecoding` with `k = 0` raises
no configuration error (the constructor stores `k` unchecked), and the
failure instead occurs inside the sampling arithmetic: every entry is
zeroed and the renormalization divides by zero (`none`). -/
theorem config_validation_cex :
    (TopKDecoding.mk 0).k = 0 ∧
    TopKDecoding.sample ⟨0⟩ [1/2, 1/2] (1/3) = none ∧
    topKFilter 0 [1/2, 1/2] = none ∧
    zeroIndices [1/2, 1/2] ((sortedIndices [(1 : ℚ)/2, 1/2]).drop 0) = [0, 0] := by
  norm_num [TopKDecoding.sample, topKFilter, sortedIndices, sortedPairs,
    List.insertionSort, List.orderedInsert, pairDescLE, renormalize, zeroIndices, zeroIdxFrom]

/-- C10: with `p = 1` on an exactly-normalized non-negative vector, no
cumulative sum strictly exceeds `p`, so `TopPDecoding(1).sample`
suppresses nothing: its post-truncation distribution is the input
distribution and it draws exactly as `RandomDecoding.sample`. -/
theorem topP_one_is_random (probs : List ℚ) (hnn : ∀ x ∈ probs, 0 ≤ x)
    (hsum : probs.sum = 1) :
    suppressedIndices 1 probs = [] ∧
    topPFilter 1 probs = some probs ∧
    ∀ u : ℚ, TopPDecoding.sample ⟨1⟩ probs u = some (RandomDecoding.sample probs u) := by
  have hsupp : suppressedIndices 1 probs = [] :=
    suppressedIndices_high_p hnn (le_of_eq hsum)
  have hfilter : topPFilter 1 probs = some probs := by
    rw [topPFilter, hsupp, zeroIndices_nil, renormalize_sum_one hsum]
  refine ⟨hsupp, hfilter, fun u => ?_⟩
  rw [TopPDecoding.sample, hfilter]
  rfl

/-- C10 witness: the theorem applied to the concrete distribution
`[1/2, 1/3, 1/6]` and random source `u = 1/2`. -/
theorem topP_one_is_random_witness :
    topPFilter 1 [1/2, 1/3, 1/6] = some [1/2, 1/3, 1/6] ∧
    TopPDecoding.sample ⟨1⟩ [1/2, 1/3, 1/6] (1/2) =
      some (RandomDecoding.sample [1/2, 1/3, 1/6] (1/2)) :=
  ⟨(topP_one_is_random [1/2, 1/3, 1/6] (by norm_num) (by norm_num)).2.1,
    (topP_one_is_random [1/2, 1/3, 1/6] (by norm_num) (by norm_num)).2.2 (1/2)⟩

theorem list_sum_nonpos {l : List ℚ} (h : ∀ x ∈ l, x ≤ 0) : l.sum ≤ 0 := by
  induction l with
  | nil => simp
  | cons v vs ih =>
    rw [List.sum_cons]
    have h1 := h v (List.mem_cons_self v vs)
    have h2 := ih (fun x hx => h x (List.mem_cons_of_mem v hx))
    linarith

/-- C3: `TopPDecoding.sample` never suppresses the first element of the
descending sort: its entry survives the zeroing unchanged, that entry is
strictly positive, hence the pre-renormalization surviving mass is
strictly positive and the renormalization succeeds. -/
theorem topP_never_suppresses_top (probs : List ℚ) (p : ℚ)
    (hnn : ∀ x ∈ probs, 0 ≤ x) (hsum : probs.sum = 1) :
    (sortedIndices probs).headD 0 ∉ suppressedIndices p probs ∧
    (zeroIndices probs (suppressedIndices p probs)).getD
      ((sortedIndices probs).headD 0) 0 =
      probs.getD ((sortedIndices probs).headD 0) 0 ∧
    0 < probs.getD ((sortedIndices probs).headD 0) 0 ∧
    0 < (zeroIndices probs (suppressedIndices p probs)).sum ∧
    ∃ q, topPFilter p probs = some q := by
  have hne : probs ≠ [] := by
    intro h; rw [h] at hsum; simp at hsum
  obtain ⟨q0, qs, hq⟩ : ∃ q0 qs, sortedPairs probs = q0 :: qs := by
    rcases hsp : sortedPairs probs with _ | ⟨q0, qs⟩
    · have hl := sortedProbs_length probs
      rw [sortedProbs, hsp] at hl
      cases probs with
      | nil => exact absurd rfl hne
      | cons a l => simp at hl
    · exact ⟨q0, qs, rfl⟩
  have hhead : (sortedIndices probs).headD 0 = q0.2 := by
    rw [sortedIndices, hq]; rfl
  have hdrop := suppressedIndices_eq_drop p probs hne hnn
  have hnotmem : q0.2 ∉ suppressedIndices p probs := by
    rw [hdrop]
    intro hmem
    obtain ⟨K', hK'⟩ : ∃ K', topPKeepCount p probs = K' + 1 :=
      ⟨topPKeepCount p probs - 1, by
        have := le_max_left 1 ((cumsum (sortedProbs probs)).countP
          (fun x => decide (x ≤ p)))
        rw [topPKeepCount]; omega⟩
    rw [sortedIndices, hq, List.map_cons, hK', List.drop_succ_cons] at hmem
    have hmem' : q0.2 ∈ qs.map Prod.snd := List.mem_of_mem_drop hmem
    have hnd := sortedIndices_nodup probs
    rw [sortedIndices, hq, List.map_cons] at hnd
    exact (List.nodup_cons.mp hnd).1 hmem'
  have hq0mem : q0 ∈ sortedPairs probs := by
    rw [hq]; exact List.mem_cons_self q0 qs
  obtain ⟨hlt0, hval0⟩ := sortedPairs_valid hq0mem
  have hmax : ∀ y ∈ sortedPairs probs, y.1 ≤ q0.1 := by
    have hs := sortedPairs_sorted probs
    rw [hq, List.sorted_cons] at hs
    intro y hy
    rw [hq, List.mem_cons] at hy
    rcases hy with h | h
    · rw [h]
    · exact hs.1 y h
  have hpos : 0 < probs.getD q0.2 0 := by
    obtain ⟨x, hxmem, hxpos⟩ : ∃ x ∈ probs, 0 < x := by
      by_contra hcon
      push_neg at hcon
      have := list_sum_nonpos hcon
      rw [hsum] at this
      norm_num at this
    have hx2 : x ∈ sortedProbs probs := (sortedProbs_perm probs).mem_iff.mpr hxmem
    rw [sortedProbs, List.mem_map] at hx2
    obtain ⟨y, hy, hye⟩ := hx2
    have := hmax y hy
    rw [hval0]
    rw [hye] at this
    linarith
  have hgetD : (zeroIndices probs (suppressedIndices p probs)).getD q0.2 0 =
      probs.getD q0.2 0 := by
    rw [zeroIndices_getD, if_neg hnotmem]
  have hsumpos : 0 < (zeroIndices probs (suppressedIndices p probs)).sum := by
    have hlen2 : q0.2 < (zeroIndices probs (suppressedIndices p probs)).length := by
      rw [zeroIndices_length]; exact hlt0
    have hmem2 : (zeroIndices probs (suppressedIndices p probs)).getD q0.2 0 ∈
        zeroIndices probs (suppressedIndices p probs) := by
      rw [List.getD_eq_getElem _ _ hlen2]
      exact List.getElem_mem hlen2
    have hle := List.single_le_sum (zeroIndices_nonneg hnn) _ hmem2
    rw [hgetD] at hle
    linarith
  rw [hhead]
  refine ⟨hnotmem, hgetD, hpos, hsumpos, ?_⟩
  rw [topPFilter, renormalize, if_neg (ne_of_gt hsumpos)]
  exact ⟨_, rfl⟩

/-- C3 witness: the theorem applied to `[1/2, 3/10, 1/5]` with
`p = 3/5`. -/
theorem topP_never_suppresses_top_witness :
    (sortedIndices [1/2, 3/10, 1/5]).headD 0 ∉
      suppressedIndices (3/5) [1/2, 3/10, 1/5] ∧
    ∃ q, topPFilter (3/5) [1/2, 3/10, 1/5] = some q :=
  ⟨(topP_never_suppresses_top [1/2, 3/10, 1/5] (3/5) (by norm_num) (by norm_num)).1,
    (topP_never_suppresses_top [1/2, 3/10, 1/5] (3/5) (by norm_num) (by norm_num)).2.2.2.2⟩

theorem topPKeepCount_le (p : ℚ) (probs : List ℚ) (hne : probs ≠ []) :
    topPKeepCount p probs ≤ probs.length := by
  have h1 : (cumsum (sortedProbs probs)).countP (fun x => decide (x ≤ p)) ≤
      probs.length := by
    have := List.countP_le_length (l := cumsum (sortedProbs probs))
      (p := fun x => decide (x ≤ p))
    rw [cumsum_length, sortedProbs_length] at this
    exact this
  have hn : 1 ≤ probs.length := by
    cases probs with
    | nil => exact absurd rfl hne
    | cons a l => simp
  rw [topPKeepCount]
  omega

/-- C1 (amended): `TopPDecoding(p).sample` keeps exactly the sorted
positions below the cut `topPKeepCount p probs` — the positions whose
cumulative sum is at most `p`, but always at least the first position —
zeroes the entries at all later sorted positions, and renormalizes; the
surviving entries' pre-renormalization cumulative probability is the
cumulative sum at the last kept position, i.e. the largest prefix sum
not exceeding `p` (or the top entry's probability when that alone
already exceeds `p`), not the smallest prefix sum exceeding `p`. -/
theorem topP_kept_mass_largest_le (probs : List ℚ) (p : ℚ)
    (hnn : ∀ x ∈ probs, 0 ≤ x) (hsum : probs.sum = 1) :
    suppressedIndices p probs =
      (sortedIndices probs).drop (topPKeepCount p probs) ∧
    1 ≤ topPKeepCount p probs ∧
    topPKeepCount p probs ≤ probs.length ∧
    (∀ j, 1 ≤ j → j < topPKeepCount p probs →
      (cumsum (sortedProbs probs)).getD j 0 ≤ p) ∧
    (∀ j, topPKeepCount p probs ≤ j → j < probs.length →
      p < (cumsum (sortedProbs probs)).getD j 0) ∧
    (zeroIndices probs (suppressedIndices p probs)).sum =
      (cumsum (sortedProbs probs)).getD (topPKeepCount p probs - 1) 0 ∧
    topPFilter p probs = renormalize (zeroIndices probs
      ((sortedIndices probs).drop (topPKeepCount p probs))) := by
  have hne : probs ≠ [] := by
    intro h; rw [h] at hsum; simp at hsum
  have hdrop := suppressedIndices_eq_drop p probs hne hnn
  have hmono := cumsum_pairwise (sortedProbs_nonneg hnn)
  have hbounds := cumsum_prefix_bounds p _ hmono
  have hclen : (cumsum (sortedProbs probs)).length = probs.length := by
    rw [cumsum_length, sortedProbs_length]
  have hKle : topPKeepCount p probs ≤ probs.length := topPKeepCount_le p probs hne
  have hK1 : 1 ≤ topPKeepCount p probs := le_max_left 1 _
  refine ⟨hdrop, hK1, hKle, ?_, ?_, ?_, ?_⟩
  · intro j h1 h2
    have hjt : j < (cumsum (sortedProbs probs)).countP (fun x => decide (x ≤ p)) := by
      rw [topPKeepCount] at h2; omega
    exact hbounds.1 j hjt
  · intro j h1 h2
    have hjt : (cumsum (sortedProbs probs)).countP (fun x => decide (x ≤ p)) ≤ j := by
      rw [topPKeepCount] at h1; omega
    exact hbounds.2 j hjt (by rw [hclen]; exact h2)
  · rw [hdrop, topK_survivor_sum,
      cumsum_getD _ _ (by rw [sortedProbs_length]; omega)]
    have he : topPKeepCount p probs - 1 + 1 = topPKeepCount p probs := by omega
    rw [he]
  · rw [topPFilter, hdrop]

/-- C1 witness: the amended theorem applied to `[1/2, 3/10, 1/5]` with
`p = 3/5` (where the kept prefix is the single top entry and the
surviving mass is `1/2`). -/
theorem topP_kept_mass_largest_le_witness :
    suppressedIndices (3/5) [1/2, 3/10, 1/5] =
      (sortedIndices [1/2, 3/10, 1/5]).drop
        (topPKeepCount (3/5) [1/2, 3/10, 1/5]) ∧
    (zeroIndices [1/2, 3/10, 1/5] (suppressedIndices (3/5) [1/2, 3/10, 1/5])).sum =
      (cumsum (sortedProbs [1/2, 3/10, 1/5])).getD
        (topPKeepCount (3/5) [1/2, 3/10, 1/5] - 1) 0 :=
  ⟨(topP_kept_mass_largest_le [1/2, 3/10, 1/5] (3/5)
      (by norm_num) (by norm_num)).1,
    (topP_kept_mass_largest_le [1/2, 3/10, 1/5] (3/5)
      (by norm_num) (by norm_num)).2.2.2.2.2.1⟩

/-- C2 (amended): no configuration validation is performed anywhere —
the strategy constructors store `k` and `p` unchecked and `generate`
checks neither `temperature` nor `max_steps`; a `k = 0` strategy object
reaches the sampling arithmetic, where zeroing every entry makes the
renormalization divide by zero (`none`), and a non-positive `max_steps`
simply runs zero loop iterations instead of raising. -/
theorem config_errors_deferred :
    (∀ k : ℕ, (TopKDecoding.mk k).k = k) ∧
    (∀ p : ℚ, (TopPDecoding.mk p).p = p) ∧
    (∀ (probs : List ℚ) (u : ℚ), TopKDecoding.sample ⟨0⟩ probs u = none) ∧
    (∀ (g : TextGenerator) (prompt : String) (temperature : ℚ) (m : ℤ), m ≤ 0 →
      (g.generateFull prompt m temperature).record = g.tokenizer.encode prompt ∧
      (g.generateFull prompt m temperature).views = []) := by
  refine ⟨fun k => rfl, fun p => rfl, fun probs u => ?_, fun g prompt temp m hm => ?_⟩
  · rw [TopKDecoding.sample]
    rw [show (TopKDecoding.mk 0).k = 0 from rfl, topKFilter_zero_eq_none]
    rfl
  · have hz : m.toNat = 0 := by omega
    rw [TextGenerator.generateFull, hz]
    exact ⟨rfl, rfl⟩

/-- C2 witness: the amended theorem applied to a concrete `k = 0`
strategy and a concrete generator with `max_steps = -3`. -/
theorem config_errors_deferred_witness :
    TopKDecoding.sample ⟨0⟩ [1/2, 1/2] (1/3) = none ∧
    ((⟨⟨fun _ => [[1, 0]], 5⟩, ⟨fun _ => [0], fun _ => "p", 1⟩, fun _ => 0,
        fun l => l⟩ : TextGenerator).generateFull "p" (-3) 1).record =
      (⟨⟨fun _ => [[1, 0]], 5⟩, ⟨fun _ => [0], fun _ => "p", 1⟩, fun _ => 0,
        fun l => l⟩ : TextGenerator).tokenizer.encode "p" :=
  ⟨config_errors_deferred.2.2.1 [1/2, 1/2] (1/3),
    (config_errors_deferred.2.2.2 _ "p" 1 (-3) (by norm_num)).1⟩

theorem categorical_replicate_zero (rest : List ℚ) :
    ∀ (m : ℕ) (u : ℚ), 0 ≤ u → u < 1 →
      categorical (List.replicate m 0 ++ 1 :: rest) u = m := by
  intro m
  induction m with
  | zero =>
    intro u h0 h1
    simp [categorical, h1]
  | succ m' ih =>
    intro u h0 h1
    rw [List.replicate_succ, List.cons_append, categorical,
      if_neg (not_lt.mpr h0), sub_zero, ih u h0 h1]

theorem categorical_oneHot (V idx : ℕ) (u : ℚ) (h0 : 0 ≤ u) (h1 : u < 1) :
    categorical (oneHot V idx) u = idx := by
  rw [oneHot]
  exact categorical_replicate_zero _ idx u h0 h1

/-- C5: whenever the strategy's sample returns the end-of-sequence
index, the loop stops immediately without appending that token to the
record; in particular, with a model putting all probability mass on
`eos_index` at step 1 and a weighted random draw, `generate` performs
exactly one model invocation and returns the tokenizer's decoding of
the encoded prompt alone. -/
theorem eos_stops_immediately :
    (∀ (g : TextGenerator) (temp : ℚ) (fuel : ℕ) (record : List ℕ) (warned : Bool),
      g.decodingStrategy (stepProbs g temp (stepView g record)) = g.tokenizer.eosIdx →
      (genLoop g temp (fuel + 1) record warned).record = record ∧
      (genLoop g temp (fuel + 1) record warned).recordsHist = [record] ∧
      (genLoop g temp (fuel + 1) record warned).views = [stepView g record]) ∧
    (∀ (g : TextGenerator) (prompt : String) (temp : ℚ) (maxSteps : ℤ)
        (u : ℚ) (V : ℕ),
      1 ≤ maxSteps → 0 ≤ u → u < 1 →
      (∀ probs, g.decodingStrategy probs = RandomDecoding.sample probs u) →
      stepProbs g temp (stepView g (g.tokenizer.encode prompt)) =
        oneHot V g.tokenizer.eosIdx →
      (g.generateFull prompt maxSteps temp).views.length = 1 ∧
      (g.generateFull prompt maxSteps temp).record = g.tokenizer.encode prompt ∧
      g.generate prompt maxSteps temp =
        g.tokenizer.decode (g.tokenizer.encode prompt)) := by
  have hgen : ∀ (g : TextGenerator) (temp : ℚ) (fuel : ℕ) (record : List ℕ)
      (warned : Bool),
      g.decodingStrategy (stepProbs g temp (stepView g record)) = g.tokenizer.eosIdx →
      (genLoop g temp (fuel + 1) record warned).record = record ∧
      (genLoop g temp (fuel + 1) record warned).recordsHist = [record] ∧
      (genLoop g temp (fuel + 1) record warned).views = [stepView g record] := by
    intro g temp fuel record warned h
    rw [genLoop]
    simp [h]
  refine ⟨hgen, fun g prompt temp maxSteps u V hms h0 h1 hstrat hprobs => ?_⟩
  have heos : g.decodingStrategy
      (stepProbs g temp (stepView g (g.tokenizer.encode prompt))) =
      g.tokenizer.eosIdx := by
    rw [hstrat, hprobs, RandomDecoding.sample, categorical_oneHot V _ u h0 h1]
  obtain ⟨f, hf⟩ : ∃ f, maxSteps.toNat = f + 1 :=
    ⟨maxSteps.toNat - 1, by omega⟩
  have hrec := hgen g temp f (g.tokenizer.encode prompt) false heos
  constructor
  · rw [TextGenerator.generateFull, hf, hrec.2.2]
    rfl
  constructor
  · rw [TextGenerator.generateFull, hf]
    exact hrec.1
  · rw [TextGenerator.generate, TextGenerator.generateFull, hf, hrec.1]

/-- C5 witness: a concrete generator whose softmax output at step 1 is
the one-hot vector at the end-of-sequence index 2. -/
theorem eos_stops_immediately_witness :
    ((⟨⟨fun _ => [[0, 0, 0]], 10⟩, ⟨fun _ => [7], fun l => toString l, 2⟩,
        fun probs => RandomDecoding.sample probs (1/2),
        fun _ => oneHot 3 2⟩ : TextGenerator).generateFull "hi" 5 1).views.length = 1 ∧
    ((⟨⟨fun _ => [[0, 0, 0]], 10⟩, ⟨fun _ => [7], fun l => toString l, 2⟩,
        fun probs => RandomDecoding.sample probs (1/2),
        fun _ => oneHot 3 2⟩ : TextGenerator).generateFull "hi" 5 1).record =
      (⟨⟨fun _ => [[0, 0, 0]], 10⟩, ⟨fun _ => [7], fun l => toString l, 2⟩,
        fun probs => RandomDecoding.sample probs (1/2),
        fun _ => oneHot 3 2⟩ : TextGenerator).tokenizer.encode "hi" := by
  have h := eos_stops_immediately.2
    (⟨⟨fun _ => [[0, 0, 0]], 10⟩, ⟨fun _ => [7], fun l => toString l, 2⟩,
        fun probs => RandomDecoding.sample probs (1/2),
        fun _ => oneHot 3 2⟩ : TextGenerator) "hi" 1 5 (1/2) 3
    (by norm_num) (by norm_num) (by norm_num) (fun probs => rfl) rfl
  exact ⟨h.1, h.2.1⟩

theorem genLoop_no_eos_counts (g : TextGenerator) (temp : ℚ)
    (h : ∀ probs, g.decodingStrategy probs ≠ g.tokenizer.eosIdx) :
    ∀ (fuel : ℕ) (record : List ℕ) (warned : Bool),
      (genLoop g temp fuel record warned).record.length = record.length + fuel ∧
      (genLoop g temp fuel record warned).views.length = fuel ∧
      (genLoop g temp fuel record warned).recordsHist.length = fuel := by
  intro fuel
  induction fuel with
  | zero => intro record warned; simp [genLoop]
  | succ f ih =>
    intro record warned
    rw [genLoop]
    simp only [if_neg (h _)]
    obtain ⟨h1, h2, h3⟩ := ih
      (record ++ [g.decodingStrategy (stepProbs g temp (stepView g record))])
      (decide (g.model.maxInputLength < record.length) || warned)
    refine ⟨?_, ?_, ?_⟩
    · simp only [h1, List.length_append, List.length_cons, List.length_nil]
      omega
    · simp only [List.length_cons, h2]
    · simp only [List.length_cons, h3]

/-- C6: with a strategy that never returns the end-of-sequence index,
`generate` with `max_steps = n` performs exactly `n` model invocations
and returns the decoding of a record exactly `n` tokens longer than the
encoded prompt; with `n = 0` the loop body never runs and the decoded
prompt is returned unchanged. -/
theorem step_budget_termination (g : TextGenerator) (prompt : String)
    (temp : ℚ) (n : ℕ)
    (h : ∀ probs, g.decodingStrategy probs ≠ g.tokenizer.eosIdx) :
    (g.generateFull prompt (n : ℤ) temp).views.length = n ∧
    (g.generateFull prompt (n : ℤ) temp).recordsHist.length = n ∧
    (g.generateFull prompt (n : ℤ) temp).record.length =
      (g.tokenizer.encode prompt).length + n ∧
    (g.generateFull prompt 0 temp).record = g.tokenizer.encode prompt ∧
    g.generate prompt 0 temp = g.tokenizer.decode (g.tokenizer.encode prompt) := by
  have hc := genLoop_no_eos_counts g temp h n (g.tokenizer.encode prompt) false
  have htn : ((n : ℤ)).toNat = n := Int.toNat_natCast n
  rw [TextGenerator.generate, TextGenerator.generateFull, htn]
  exact ⟨hc.2.1, hc.2.2, hc.1, rfl, rfl⟩

/-- C6 witness: a concrete generator that always samples token 0 while
the end-of-sequence index is 1, run for 3 steps. -/
theorem step_budget_termination_witness :
    ((⟨⟨fun _ => [[1, 0]], 10⟩, ⟨fun _ => [4, 5], fun l => toString l, 1⟩,
        fun _ => 0, fun l => l⟩ : TextGenerator).generateFull "x" (3 : ℤ) 1).views.length
      = 3 ∧
    ((⟨⟨fun _ => [[1, 0]], 10⟩, ⟨fun _ => [4, 5], fun l => toString l, 1⟩,
        fun _ => 0, fun l => l⟩ : TextGenerator).generateFull "x" (3 : ℤ) 1).record.length
      = ((⟨⟨fun _ => [[1, 0]], 10⟩, ⟨fun _ => [4, 5], fun l => toString l, 1⟩,
        fun _ => 0, fun l => l⟩ : TextGenerator).tokenizer.encode "x").length + 3 := by
  have h := step_budget_termination
    (⟨⟨fun _ => [[1, 0]], 10⟩, ⟨fun _ => [4, 5], fun l => toString l, 1⟩,
        fun _ => 0, fun l => l⟩ : TextGenerator) "x" 1 3 (fun _ => by norm_num)
  exact ⟨h.1, h.2.2.1⟩

theorem genLoop_warn_of_warned (g : TextGenerator) (temp : ℚ) :
    ∀ (fuel : ℕ) (record : List ℕ),
      (genLoop g temp fuel record true).warnRecords = [] := by
  intro fuel
  induction fuel with
  | zero => intro record; simp [genLoop]
  | succ f ih =>
    intro record
    rw [genLoop]
    by_cases he : g.decodingStrategy (stepProbs g temp (stepView g record)) =
      g.tokenizer.eosIdx
    · simp [he]
    · simp [he, ih]

theorem genLoop_warn_of_not_warned (g : TextGenerator) (temp : ℚ) :
    ∀ (fuel : ℕ) (record : List ℕ),
      (genLoop g temp fuel record false).warnRecords =
        ((genLoop g temp fuel record false).recordsHist.find?
          (fun r => decide (g.model.maxInputLength < r.length))).toList := by
  intro fuel
  induction fuel with
  | zero => intro record; simp [genLoop]
  | succ f ih =>
    intro record
    by_cases he : g.decodingStrategy (stepProbs g temp (stepView g record)) =
      g.tokenizer.eosIdx
    · rw [genLoop]
      by_cases hc : g.model.maxInputLength < record.length
      · simp [he, hc]
      · simp [he, hc]
    · rw [genLoop]
      by_cases hc : g.model.maxInputLength < record.length
      · simp [he, hc, genLoop_warn_of_warned]
      · simp [he, hc, ih]

/-- C7: within a single `generate` call the context-clamp warning fires
at most once, namely at the first model invocation whose full record
exceeds `max_input_length` (the `find?` over the instrumented history),
and not at all when no step exceeds it; the flag starts cleared on
every fresh call. -/
theorem warning_fires_once (g : TextGenerator) (prompt : String)
    (maxSteps : ℤ) (temp : ℚ) :
    (g.generateFull prompt maxSteps temp).warnRecords.length ≤ 1 ∧
    (g.generateFull prompt maxSteps temp).warnRecords =
      ((g.generateFull prompt maxSteps temp).recordsHist.find?
        (fun r => decide (g.model.maxInputLength < r.length))).toList ∧
    ((g.generateFull prompt maxSteps temp).warnRecords = [] ↔
      ∀ r ∈ (g.generateFull prompt maxSteps temp).recordsHist,
        r.length ≤ g.model.maxInputLength) := by
  have h := genLoop_warn_of_not_warned g temp maxSteps.toNat
    (g.tokenizer.encode prompt)
  have hgen : (g.generateFull prompt maxSteps temp).warnRecords =
      ((g.generateFull prompt maxSteps temp).recordsHist.find?
        (fun r => decide (g.model.maxInputLength < r.length))).toList := h
  refine ⟨?_, hgen, ?_⟩
  · rw [hgen]
    cases (g.generateFull prompt maxSteps temp).recordsHist.find?
      (fun r => decide (g.model.maxInputLength < r.length)) <;> simp
  · rw [hgen]
    cases hf : (g.generateFull prompt maxSteps temp).recordsHist.find?
      (fun r => decide (g.model.maxInputLength < r.length)) with
    | none =>
      simp only [Option.toList_none]
      constructor
      · intro _ r hr
        have := List.find?_eq_none.mp hf r hr
        simpa using this
      · intro _; trivial
    | some w =>
      simp only [Option.toList_some]
      constructor
      · intro hcon; exact absurd hcon (by simp)
      · intro hall
        have hw := List.find?_some hf
        have hwm := List.mem_of_find?_eq_some hf
        have := hall w hwm
        simp at hw
        omega

/-- C7 witness: the bound instantiated at a concrete generator whose
record immediately exceeds the maximum input length. -/
theorem warning_fires_once_witness :
    ((⟨⟨fun _ => [[1, 0]], 1⟩, ⟨fun _ => [4, 5], fun l => toString l, 9⟩,
        fun _ => 0, fun l => l⟩ : TextGenerator).generateFull "x" 3 1).warnRecords.length
      ≤ 1 :=
  (warning_fires_once
    (⟨⟨fun _ => [[1, 0]], 1⟩, ⟨fun _ => [4, 5], fun l => toString l, 9⟩,
        fun _ => 0, fun l => l⟩ : TextGenerator) "x" 3 1).1

theorem genLoop_views_frame (g : TextGenerator) (temp : ℚ) :
    ∀ (fuel : ℕ) (record : List ℕ) (warned : Bool),
      (genLoop g temp fuel record warned).views =
        (genLoop g temp fuel record warned).recordsHist.map (stepView g) ∧
      ∃ t, (genLoop g temp fuel record warned).record = record ++ t := by
  intro fuel
  induction fuel with
  | zero =>
    intro record warned
    exact ⟨rfl, [], (List.append_nil record).symm⟩
  | succ f ih =>
    intro record warned
    rw [genLoop]
    by_cases he : g.decodingStrategy (stepProbs g temp (stepView g record)) =
      g.tokenizer.eosIdx
    · refine ⟨by simp [he], ?_⟩
      simp only [he, if_pos rfl]
      exact ⟨[], (List.append_nil record).symm⟩
    · obtain ⟨hv, t, ht⟩ := ih
        (record ++ [g.decodingStrategy (stepProbs g temp (stepView g record))])
        (decide (g.model.maxInputLength < record.length) || warned)
      refine ⟨by simp [he, hv], ?_⟩
      refine ⟨g.decodingStrategy (stepProbs g temp (stepView g record)) :: t, ?_⟩
      simp only [if_neg he]
      rw [ht, List.append_assoc]
      rfl

/-- C8: the context clamp never shortens the full record: every model
invocation receives exactly the `stepView` of the record at that step —
the most recent `max_input_length` tokens (a suffix of that exact
length) whenever the record exceeds the limit — while the full record
only ever grows from the encoded prompt, and the returned string is the
tokenizer's decoding of that full record. -/
theorem clamp_is_view_only (g : TextGenerator) (prompt : String)
    (maxSteps : ℤ) (temp : ℚ) :
    (g.generateFull prompt maxSteps temp).views =
      (g.generateFull prompt maxSteps temp).recordsHist.map (stepView g) ∧
    (∀ r : List ℕ, g.model.maxInputLength < r.length →
      stepView g r = r.drop (r.length - g.model.maxInputLength) ∧
      (stepView g r).length = g.model.maxInputLength) ∧
    (∃ t, (g.generateFull prompt maxSteps temp).record =
      g.tokenizer.encode prompt ++ t) ∧
    g.generate prompt maxSteps temp =
      g.tokenizer.decode (g.generateFull prompt maxSteps temp).record := by
  obtain ⟨hv, ht⟩ := genLoop_views_frame g temp maxSteps.toNat
    (g.tokenizer.encode prompt) false
  refine ⟨hv, ?_, ht, rfl⟩
  intro r hr
  constructor
  · rw [stepView, if_pos hr]
  · rw [stepView, if_pos hr, List.length_drop]
    omega

/-- C8 witness: the suffix-view fact instantiated at a concrete record
exceeding a concrete maximum input length. -/
theorem clamp_is_view_only_witness :
    stepView (⟨⟨fun _ => [[1, 0]], 1⟩, ⟨fun _ => [4, 5], fun l => toString l, 9⟩,
        fun _ => 0, fun l => l⟩ : TextGenerator) [4, 5] =
      ([4, 5] : List ℕ).drop (([4, 5] : List ℕ).length - 1) ∧
    (stepView (⟨⟨fun _ => [[1, 0]], 1⟩, ⟨fun _ => [4, 5], fun l => toString l, 9⟩,
        fun _ => 0, fun l => l⟩ : TextGenerator) [4, 5]).length = 1 :=
  (clamp_is_view_only
    (⟨⟨fun _ => [[1, 0]], 1⟩, ⟨fun _ => [4, 5], fun l => toString l, 9⟩,
        fun _ => 0, fun l => l⟩ : TextGenerator) "x" 3 1).2.1 [4, 5] (by norm_num)
